import Mathlib

/-!
# nixpkgs-update-notify: the log visitor and the link scraper

A shallow embedding of `src/main.go`: `visitLog` (lines 184-283) and the token loop of
`scrapeLinks` (lines 155-181), together with the few standard-library string functions
they call and a relational model of the three-table SQLite store of lines 57-66.

Go strings are byte sequences; a byte is a natural number here and every string function
below only compares bytes for equality, so the results hold for every byte sequence.
-/

namespace NixpkgsUpdateNotify

/-! ## Go strings -/

/-- A Go `string`: an immutable sequence of bytes. -/
abbrev GoString := List Nat

/-- The bytes of an ASCII literal of the source. -/
def ascii (s : String) : GoString := s.toList.map Char.toNat

/-- The scanning loop of `strings.Split(s, sep)` for a one-byte separator, as called on
line 185 with `"/"`: `cur` holds, reversed, the bytes read since the last separator. -/
def splitLoop (sep : Nat) : GoString → GoString → List GoString
  | [], cur => [cur.reverse]
  | c :: cs, cur =>
    if c = sep then cur.reverse :: splitLoop sep cs [] else splitLoop sep cs (c :: cur)

/-- Go's `strings.Split(s, sep)` for a one-byte separator `sep`. -/
def Split (s : GoString) (sep : Nat) : List GoString := splitLoop sep s []

/-- Go's `strings.TrimLeft(s, cutset)`: drops the longest prefix made of bytes of `cutset`. -/
def TrimLeft (s cutset : GoString) : GoString := s.dropWhile (fun c => decide (c ∈ cutset))

/-- Go's `strings.TrimRight(s, cutset)`: drops the longest suffix made of bytes of `cutset`. -/
def TrimRight (s cutset : GoString) : GoString :=
  (s.reverse.dropWhile (fun c => decide (c ∈ cutset))).reverse

/-- Go's `strings.Trim(s, cutset)` for an ASCII `cutset`: the standard library trims the right
end and then the left end, removing every byte that belongs to the set `cutset`. -/
def Trim (s cutset : GoString) : GoString := TrimLeft (TrimRight s cutset) cutset

/-- Go's `strings.HasPrefix(s, prefix)`. -/
def HasPrefix : GoString → GoString → Bool
  | _, [] => true
  | [], _ :: _ => false
  | c :: cs, p :: ps => decide (c = p) && HasPrefix cs ps

/-- Go's `strings.Contains(s, substr)`: whether `substr` occurs at some offset of `s`. -/
def Contains : GoString → GoString → Bool
  | [], substr => HasPrefix [] substr
  | c :: cs, substr => HasPrefix (c :: cs) substr || Contains cs substr

/-- The byte `'/'`. -/
def slash : Nat := 47

/-! ## Lines 185-187 of `visitLog`: package name and date of a log URL -/

/-- Lines 185-187: `components := strings.Split(url, "/")`,
`pkgName := components[len(components)-2]`,
`date := strings.Trim(components[len(components)-1], ".log")`.
`none` is the run-time panic of an index out of range (`len(components)-2 = -1`). -/
def pkgNameAndDate (url : GoString) : Option (GoString × GoString) :=
  let components := Split url slash
  if components.length < 2 then none
  else
    some (components.getD (components.length - 2) [],
          Trim (components.getD (components.length - 1) []) (ascii ".log"))

/-! ## The store (schema of lines 57-66) -/

/-- A row of `packages (id INTEGER PRIMARY KEY, name TEXT UNIQUE NOT NULL)`. -/
structure PackageRow where
  id : Nat
  name : GoString
  deriving DecidableEq

/-- A row of `visited (id INTEGER PRIMARY KEY, pkgid INTEGER, date TEXT NOT NULL,
error INTEGER, UNIQUE(pkgid, date), FOREIGN KEY(pkgid) REFERENCES packages(id))`. -/
structure VisitedRow where
  id : Nat
  pkgid : Nat
  date : GoString
  error : Bool
  deriving DecidableEq

/-- The two tables `visitLog` reads and writes, rows in insertion order. -/
structure DB where
  packages : List PackageRow
  visited : List VisitedRow
  deriving DecidableEq

/-- The store right after the `CREATE TABLE IF NOT EXISTS` statements on a fresh file. -/
def DB.empty : DB := ⟨[], []⟩

/-- SQLite's choice of a rowid for an `INTEGER PRIMARY KEY` column left unspecified by the
insert: one more than the largest rowid in use, `1` for an empty table. (The engine behaves
differently only once the largest rowid is `2^63 - 1`, which is outside this model.) -/
def nextRowid (ids : List Nat) : Nat := ids.foldr max 0 + 1

/-- Line 192-198: `SELECT id from packages WHERE name = ?` read with `QueryRow(..).Scan`:
the id of the first matching row, `none` for `sql.ErrNoRows`. -/
def selectPackageId (db : DB) (name : GoString) : Option Nat :=
  (db.packages.find? (fun p => decide (p.name = name))).map (fun p => p.id)

/-- Line 202-211: `INSERT INTO packages(name) VALUES (?)` followed by `LastInsertId`.
`none` is the constraint failure of `name TEXT UNIQUE`. -/
def insertPackage (db : DB) (name : GoString) : Option (DB × Nat) :=
  if name ∈ db.packages.map (fun p => p.name) then none
  else
    let id := nextRowid (db.packages.map (fun p => p.id))
    some ({ db with packages := db.packages ++ [⟨id, name⟩] }, id)

/-- Lines 190-219, the block commented `pkgName -> pkgID`: look the name up and insert it
when no row is found. `none` is the panic of line 209. -/
def resolvePackage (db : DB) (pkgName : GoString) : Option (DB × Nat) :=
  match selectPackageId db pkgName with
  | some pkgID => some (db, pkgID)
  | none => insertPackage db pkgName

/-- Line 223-229: `SELECT COUNT(*) FROM visited where pkgid = ? AND date = ?`. -/
def countVisited (db : DB) (pkgID : Nat) (date : GoString) : Nat :=
  db.visited.countP (fun v => decide (v.pkgid = pkgID) && decide (v.date = date))

/-- Line 270-276: `INSERT INTO visited (pkgid, date, error) VALUES (?, ?, ?)`.
`none` is a constraint failure: `UNIQUE(pkgid, date)`, or the foreign key on `pkgid`
(the connection is opened with `_foreign_keys=true`). -/
def insertVisited (db : DB) (pkgID : Nat) (date : GoString) (hasError : Bool) : Option DB :=
  if db.visited.any (fun v => decide (v.pkgid = pkgID) && decide (v.date = date)) then none
  else if pkgID ∉ db.packages.map (fun p => p.id) then none
  else
    some { db with
      visited := db.visited ++ [⟨nextRowid (db.visited.map (fun v => v.id)), pkgID, date, hasError⟩] }

/-! ## `visitLog` -/

/-- What the outside world answers to one call of `visitLog`. -/
structure World where
  /-- Lines 240-249: `hCli.Get(url)` and `io.ReadAll`; `none` is a transport error. -/
  get : GoString → Option GoString
  /-- Line 255: `viper.GetBool("matrix.enabled")`. -/
  matrixEnabled : Bool
  /-- Line 257: `mCli.SendText(ctx, room, text)`; `true` when it returns no error. -/
  sendText : GoString → GoString → Bool

/-- How a call of `visitLog` ends. -/
inductive Outcome where
  /-- Returned at line 283, after the insert into `visited`. -/
  | done
  /-- Returned at line 237: the log was found in `visited`. -/
  | skipped
  /-- Panic at line 186: index out of range. -/
  | panicIndex
  /-- Panic at line 209: the insert into `packages` failed. -/
  | panicPackageInsert
  /-- Panic at line 242 or 248: the log could not be fetched. -/
  | panicFetch
  /-- Panic at line 259: `SendText` returned an error. -/
  | panicSend
  /-- Panic at line 278: the insert into `visited` failed. -/
  | panicVisitedInsert
  deriving DecidableEq

/-- The observable effects of one call of `visitLog`. -/
structure Result where
  /-- The store after the call (writes made before a panic stay). -/
  db : DB
  /-- The URLs passed to `hCli.Get`, in order. -/
  fetched : List GoString
  /-- The `(room, text)` pairs passed to `SendText`, in order. -/
  sent : List (GoString × GoString)
  outcome : Outcome
  deriving DecidableEq

/-- The room id of line 257. -/
def room : GoString := ascii "!MenOKIzGKBfJIaUlTC:matrix.dapp.org.uk"

/-- Line 257: `fmt.Sprintf("logfile contains an error: %s", url)`. -/
def errorMessage (url : GoString) : GoString := ascii "logfile contains an error: " ++ url

/-- Lines 269-279 of `visitLog`: the insert into `visited` and the return. -/
def recordVisit (db : DB) (pkgID : Nat) (date url : GoString) (hasError : Bool)
    (sent : List (GoString × GoString)) : Result :=
  match insertVisited db pkgID date hasError with
  | none => ⟨db, [url], sent, .panicVisitedInsert⟩
  | some db2 => ⟨db2, [url], sent, .done⟩

/-- Lines 184-283: `func visitLog(url string, db *sql.DB, mCli *mautrix.Client,
hCli *http.Client)`. -/
def visitLog (w : World) (url : GoString) (db : DB) : Result :=
  match pkgNameAndDate url with
  | none => ⟨db, [], [], .panicIndex⟩
  | some (pkgName, date) =>
    match resolvePackage db pkgName with
    | none => ⟨db, [], [], .panicPackageInsert⟩
    | some (db1, pkgID) =>
      if countVisited db1 pkgID date = 1 then ⟨db1, [], [], .skipped⟩
      else
        match w.get url with
        | none => ⟨db1, [url], [], .panicFetch⟩
        | some body =>
          if Contains body (ascii "error") then
            if w.matrixEnabled then
              if w.sendText room (errorMessage url) then
                recordVisit db1 pkgID date url true [(room, errorMessage url)]
              else ⟨db1, [url], [(room, errorMessage url)], .panicSend⟩
            else recordVisit db1 pkgID date url true []
          else recordVisit db1 pkgID date url false []

/-- A sequence of `visitLog` calls on one store, each with its own answers of the outside
world; the store is the persisted file, so it is threaded through also after a panic (a
run that stops at a panic is the run of a shorter sequence). -/
def visitLogs (db : DB) : List (World × GoString) → DB
  | [] => db
  | (w, url) :: rest => visitLogs (visitLog w url db).db rest

/-! ## `scrapeLinks` -/

/-- The token types of `golang.org/x/net/html`. -/
inductive TokenType where
  | ErrorToken
  | TextToken
  | StartTagToken
  | EndTagToken
  | SelfClosingTagToken
  | CommentToken
  | DoctypeToken
  deriving DecidableEq

/-- The struct `html.Attribute`. -/
structure Attribute where
  Namespace : GoString
  Key : GoString
  Val : GoString
  deriving DecidableEq

/-- The struct `html.Token` (without `DataAtom`, which `scrapeLinks` does not read); `Typ`
is its field `Type`. -/
structure Token where
  Typ : TokenType
  Data : GoString
  Attr : List Attribute
  deriving DecidableEq

/-- Lines 169-178: the loop over the attributes of an anchor, left by `break` at the first
attribute with `a.Key == "href" && a.Val != "../"`; the result is the string sent on `ch`,
if any. `joinPath` and `urlString` stand for the methods `JoinPath` and `String` of
`net/url` called on lines 171 and 175. -/
def scanAttrs {U : Type} (joinPath : U → GoString → U) (urlString : U → GoString) (parsedURL : U) :
    List Attribute → Option GoString
  | [] => none
  | a :: rest =>
    if a.Key = ascii "href" ∧ a.Val ≠ ascii "../" then some (urlString (joinPath parsedURL a.Val))
    else scanAttrs joinPath urlString parsedURL rest

/-- Lines 157-181: the token loop of `scrapeLinks`. The argument lists what `z.Next()` and
`z.Token()` yield, the end of the list standing for the final `html.ErrorToken`; the
result lists the strings sent on `ch`, in order. -/
def scrapeLinks {U : Type} (joinPath : U → GoString → U) (urlString : U → GoString) (parsedURL : U) :
    List Token → List GoString
  | [] => []
  | t :: rest =>
    match t.Typ with
    | .ErrorToken => []
    | .StartTagToken =>
      if t.Data = ascii "a" then
        match scanAttrs joinPath urlString parsedURL t.Attr with
        | some fullURL => fullURL :: scrapeLinks joinPath urlString parsedURL rest
        | none => scrapeLinks joinPath urlString parsedURL rest
      else scrapeLinks joinPath urlString parsedURL rest
    | _ => scrapeLinks joinPath urlString parsedURL rest

/-- Following the words of the specification: the href that an anchor start tag
contributes, namely its first `href` attribute whose value is not `../`; no other token
contributes one. -/
def hrefOf (t : Token) : Option GoString :=
  if t.Typ = .StartTagToken ∧ t.Data = ascii "a" then
    (t.Attr.find? (fun a => decide (a.Key = ascii "href" ∧ a.Val ≠ ascii "../"))).map
      (fun a => a.Val)
  else none

/-- Following the words of the specification: the links of a document are, in document
order, the base URL joined with the href of each token up to the end of the stream. -/
def extractLinks {U : Type} (joinPath : U → GoString → U) (urlString : U → GoString) (base : U)
    (tokens : List Token) : List GoString :=
  (tokens.takeWhile (fun t => decide (t.Typ ≠ .ErrorToken))).filterMap
    (fun t => (hrefOf t).map (fun href => urlString (joinPath base href)))

/-! ### The part of `net/url` and `path` behind `JoinPath`

A model of the Go standard library for URLs of the shape `scheme://host/path` without user
information, query or fragment, and whose path needs no percent-encoding. -/

/-- The fields `Scheme`, `Host` and `Path` of `url.URL`. -/
structure URL where
  Scheme : GoString
  Host : GoString
  Path : GoString
  deriving DecidableEq

/-- Go's `strings.HasSuffix(s, suffix)`. -/
def HasSuffix (s suffix : GoString) : Bool := HasPrefix s.reverse suffix.reverse

/-- The element loop of `path.Clean`: `out` holds, reversed, the elements kept so far.
Empty elements and `.` are dropped; `..` removes the element before it, is dropped at the
root of a rooted path, and is kept at the start of a relative one. -/
def cleanLoop (rooted : Bool) : List GoString → List GoString → List GoString
  | [], out => out.reverse
  | e :: es, out =>
    if e = [] ∨ e = ascii "." then cleanLoop rooted es out
    else if e = ascii ".." then
      match out with
      | [] => if rooted then cleanLoop rooted es [] else cleanLoop rooted es [e]
      | top :: below =>
        if top = ascii ".." then cleanLoop rooted es (e :: top :: below)
        else cleanLoop rooted es below
    else cleanLoop rooted es (e :: out)

/-- Go's `path.Clean`. -/
def Clean (path : GoString) : GoString :=
  if path = [] then ascii "."
  else
    let rooted := HasPrefix path [slash]
    let out := [slash].intercalate (cleanLoop rooted (Split path slash) [])
    if rooted then slash :: out else if out = [] then ascii "." else out

/-- Go's `(*URL).JoinPath(elem)` with one element: the path and the element are joined by
`path.Join`, which cleans the result, and a trailing slash of the element is kept. -/
def URL.JoinPath (u : URL) (elem : GoString) : URL :=
  let rooted := HasPrefix u.Path [slash]
  let elem0 := if rooted then u.Path else slash :: u.Path
  let joined := Clean (elem0 ++ slash :: elem)
  let p := if rooted then joined else joined.drop 1
  let p := if HasSuffix elem [slash] && !HasSuffix p [slash] then p ++ [slash] else p
  { u with Path := p }

/-- Go's `(*URL).String()` for a URL with a scheme and a host. -/
def URL.String (u : URL) : GoString :=
  u.Scheme ++ ascii "://" ++ u.Host ++
    (if u.Path ≠ [] ∧ ¬ HasPrefix u.Path [slash] then [slash] else []) ++ u.Path

/-- The parsed base URL `https://example.org/pkgs/` of the specification's example. -/
def pkgsBase : URL := ⟨ascii "https", ascii "example.org", ascii "/pkgs/"⟩

/-- The token of `<a href="...">`. -/
def anchor (href : GoString) : Token := ⟨.StartTagToken, ascii "a", [⟨[], ascii "href", href⟩]⟩

/-! ## The constraints of the schema, and what "visited" means -/

/-- The constraint `packages.id INTEGER PRIMARY KEY`: no two rows share an id. -/
def UniqueIds (db : DB) : Prop := (db.packages.map (fun p => p.id)).Nodup

/-- The constraint `packages.name TEXT UNIQUE`: no two rows share a name. -/
def UniqueNames (db : DB) : Prop := (db.packages.map (fun p => p.name)).Nodup

/-- The constraint `UNIQUE(pkgid, date)` of `visited`: no two visit records share
(package id, date). -/
def UniqueVisits (db : DB) : Prop := (db.visited.map (fun v => (v.pkgid, v.date))).Nodup

/-- The constraint `FOREIGN KEY(pkgid) REFERENCES packages(id)` of `visited`. -/
def ForeignKeys (db : DB) : Prop := ∀ v ∈ db.visited, v.pkgid ∈ db.packages.map (fun p => p.id)

/-- The pair (package name, date) is present as a visit record: some `visited` row carries
the date and the id of a `packages` row of that name. -/
def Visited (db : DB) (pkgName date : GoString) : Prop :=
  ∃ p ∈ db.packages, ∃ v ∈ db.visited, p.name = pkgName ∧ v.pkgid = p.id ∧ v.date = date

/-- The visit records all refer to a package row, under whose name and with whose date one
of the URLs `urls` parses. -/
def Referential (db : DB) (urls : List GoString) : Prop :=
  ∀ v ∈ db.visited, ∃ p ∈ db.packages, p.id = v.pkgid ∧
    ∃ u ∈ urls, pkgNameAndDate u = some (p.name, v.date)

instance (db : DB) : Decidable (UniqueIds db) := by unfold UniqueIds; infer_instance
instance (db : DB) : Decidable (UniqueNames db) := by unfold UniqueNames; infer_instance
instance (db : DB) : Decidable (UniqueVisits db) := by unfold UniqueVisits; infer_instance
instance (db : DB) : Decidable (ForeignKeys db) := by unfold ForeignKeys; infer_instance
instance (db : DB) (n d : GoString) : Decidable (Visited db n d) := by
  unfold Visited; infer_instance

/-! ## Concrete inputs -/

/-- The log URL of the terminal-path example of the specification. -/
def libfooUrl : GoString := ascii "https://example.org/pkgs/libfoo/2024-03-02.log"

/-- The log URL of the end-to-end scenario of the specification. -/
def barUrl : GoString := ascii "https://example.org/pkgs/bar/2024-05-01.log"

/-- A log URL whose file name ends in bytes of the cutset `".log"` before the extension. -/
def catalogUrl : GoString := ascii "https://example.org/pkgs/libfoo/catalog.log"

/-- A world that serves `body` for every URL. -/
def worldOf (body : GoString) (matrixEnabled sendOk : Bool) : World :=
  ⟨fun _ => some body, matrixEnabled, fun _ _ => sendOk⟩

/-- The store after the log of `barUrl` was visited and found erroring. -/
def barVisited : DB := ⟨[⟨1, ascii "bar"⟩], [⟨1, 1, ascii "2024-05-01", true⟩]⟩

/-! ## Facts about the string functions -/

theorem splitLoop_append (sep : Nat) (x y cur : GoString) :
    splitLoop sep (x ++ sep :: y) cur = splitLoop sep x cur ++ splitLoop sep y [] := by
  induction x generalizing cur with
  | nil => simp [splitLoop]
  | cons c cs ih =>
    by_cases hc : c = sep
    · simp [splitLoop, hc, ih]
    · simp [splitLoop, hc, ih]

theorem splitLoop_of_not_mem (sep : Nat) (x cur : GoString) (h : sep ∉ x) :
    splitLoop sep x cur = [cur.reverse ++ x] := by
  induction x generalizing cur with
  | nil => simp [splitLoop]
  | cons c cs ih =>
    have hc : ¬ c = sep := fun e => h (by simp [e])
    have hcs : sep ∉ cs := fun e => h (by simp [e])
    simp [splitLoop, hc, ih _ hcs]

theorem Split_append (sep : Nat) (x y : GoString) :
    Split (x ++ sep :: y) sep = Split x sep ++ Split y sep := by
  simp [Split, splitLoop_append]

theorem Split_of_not_mem (sep : Nat) (x : GoString) (h : sep ∉ x) : Split x sep = [x] := by
  simp [Split, splitLoop_of_not_mem sep x [] h]

/-- The last two components of a URL that ends in `name/last`. -/
theorem Split_last_two (pre name last : GoString) (hname : slash ∉ name) (hlast : slash ∉ last)
    (hpre : pre = [] ∨ ∃ p, pre = p ++ [slash]) :
    ∃ front, Split (pre ++ name ++ slash :: last) slash = front ++ [name, last] := by
  rcases hpre with rfl | ⟨p, rfl⟩
  · refine ⟨[], ?_⟩
    simp [Split_append, Split_of_not_mem _ _ hname, Split_of_not_mem _ _ hlast]
  · refine ⟨Split p slash, ?_⟩
    have e : p ++ [slash] ++ name ++ slash :: last = p ++ slash :: (name ++ slash :: last) := by
      simp
    rw [e, Split_append, Split_append, Split_of_not_mem _ _ hname, Split_of_not_mem _ _ hlast]
    simp

theorem getD_append_pair_fst (front : List GoString) (a b d : GoString) :
    (front ++ [a, b]).getD front.length d = a := by
  induction front with
  | nil => simp
  | cons x xs ih => simpa using ih

theorem getD_append_pair_snd (front : List GoString) (a b d : GoString) :
    (front ++ [a, b]).getD (front.length + 1) d = b := by
  induction front with
  | nil => simp
  | cons x xs ih => simpa using ih

theorem pkgNameAndDate_of_split (url : GoString) (front : List GoString) (name last : GoString)
    (h : Split url slash = front ++ [name, last]) :
    pkgNameAndDate url = some (name, Trim last (ascii ".log")) := by
  have h1 := getD_append_pair_fst front name last []
  have h2 := getD_append_pair_snd front name last []
  simp only [pkgNameAndDate, h]
  have hlen : (front ++ [name, last]).length = front.length + 2 := by simp
  simp only [hlen, Nat.add_sub_cancel, show front.length + 2 - 1 = front.length + 1 from rfl,
    h1, h2]
  simp

/-- Every string with a `'/'` ends in `name/last` with `name` and `last` free of `'/'`. -/
theorem exists_last_two (url : GoString) (h : slash ∈ url) :
    ∃ pre name last, url = pre ++ name ++ slash :: last ∧ slash ∉ name ∧ slash ∉ last ∧
      (pre = [] ∨ ∃ p, pre = p ++ [slash]) := by
  induction url with
  | nil => simp at h
  | cons c cs ih =>
    by_cases hcs : slash ∈ cs
    · obtain ⟨pre, name, last, e, hn, hl, hp⟩ := ih hcs
      rcases hp with rfl | ⟨p, rfl⟩
      · by_cases hc : c = slash
        · exact ⟨[slash], name, last, by simp [e, hc], hn, hl, Or.inr ⟨[], rfl⟩⟩
        · refine ⟨[], c :: name, last, by simp [e], ?_, hl, Or.inl rfl⟩
          simpa [eq_comm, hc] using hn
      · exact ⟨c :: p ++ [slash], name, last, by simp [e], hn, hl, Or.inr ⟨c :: p, rfl⟩⟩
    · have hc : c = slash := by
        rcases List.mem_cons.mp h with e | e
        · exact e.symm
        · exact absurd e hcs
      exact ⟨[], [], cs, by simp [hc], by simp, hcs, Or.inl rfl⟩

theorem HasPrefix_iff (s p : GoString) : HasPrefix s p = true ↔ p <+: s := by
  induction p generalizing s with
  | nil => cases s <;> simp [HasPrefix]
  | cons a as ih =>
    cases s with
    | nil => simp [HasPrefix]
    | cons c cs =>
      simp only [HasPrefix, Bool.and_eq_true, decide_eq_true_eq, ih, List.cons_prefix_cons]
      constructor
      · rintro ⟨e, h⟩
        exact ⟨e.symm, h⟩
      · rintro ⟨e, h⟩
        exact ⟨e.symm, h⟩

theorem Contains_iff (s substr : GoString) : Contains s substr = true ↔ substr <:+: s := by
  induction s with
  | nil =>
    simp only [Contains, HasPrefix_iff]
    simp
  | cons c cs ih =>
    simp only [Contains, Bool.or_eq_true, HasPrefix_iff, ih]
    exact (List.infix_cons_iff).symm

/-! ## Facts about the store operations -/

theorem le_foldr_max (ids : List Nat) (i : Nat) (h : i ∈ ids) : i ≤ ids.foldr max 0 := by
  induction ids with
  | nil => simp at h
  | cons x xs ih =>
    rcases List.mem_cons.mp h with rfl | h
    · simp
    · have := ih h
      simp only [List.foldr_cons]
      omega

theorem nextRowid_not_mem (ids : List Nat) : nextRowid ids ∉ ids := by
  intro h
  have := le_foldr_max ids _ h
  simp only [nextRowid] at this
  omega

theorem selectPackageId_some {db : DB} {n : GoString} {i : Nat}
    (h : selectPackageId db n = some i) : (⟨i, n⟩ : PackageRow) ∈ db.packages := by
  simp only [selectPackageId, Option.map_eq_some'] at h
  obtain ⟨p, hp, rfl⟩ := h
  have h1 := List.find?_some hp
  have h2 := List.mem_of_find?_eq_some hp
  simp only [decide_eq_true_eq] at h1
  cases p
  simp_all

theorem selectPackageId_none {db : DB} {n : GoString}
    (h : selectPackageId db n = none) : n ∉ db.packages.map (fun p => p.name) := by
  simp only [selectPackageId, Option.map_eq_none', List.find?_eq_none, decide_eq_true_eq] at h
  simpa using h

/-- The first row of a given name is the only one when names are unique. -/
theorem selectPackageId_of_mem (db : DB) (p : PackageRow) (hn : UniqueNames db)
    (hp : p ∈ db.packages) : selectPackageId db p.name = some p.id := by
  obtain ⟨pk, vs⟩ := db
  simp only [UniqueNames, selectPackageId] at *
  induction pk with
  | nil => simp at hp
  | cons x xs ih =>
    simp only [List.map_cons, List.nodup_cons] at hn
    rcases List.mem_cons.mp hp with rfl | hp
    · simp
    · have hx : ¬ x.name = p.name := fun e => hn.1 (e ▸ List.mem_map_of_mem _ hp)
      simp only [List.find?_cons, hx, decide_False]
      exact ih hn.2 hp

/-- What the block `pkgName -> pkgID` does: it never fails, it leaves `visited` alone, the
id it returns belongs to a row of that name, and it either found the row or appended it. -/
theorem resolvePackage_spec (db : DB) (n : GoString) :
    ∃ db1 id, resolvePackage db n = some (db1, id) ∧ db1.visited = db.visited ∧
      (⟨id, n⟩ : PackageRow) ∈ db1.packages ∧
      ((db1 = db ∧ selectPackageId db n = some id) ∨
        (n ∉ db.packages.map (fun p => p.name) ∧ id = nextRowid (db.packages.map (fun p => p.id)) ∧
          db1.packages = db.packages ++ [⟨id, n⟩])) := by
  cases h : selectPackageId db n with
  | some i =>
    exact ⟨db, i, by simp [resolvePackage, h], rfl, selectPackageId_some h, Or.inl ⟨rfl, rfl⟩⟩
  | none =>
    have hn := selectPackageId_none h
    refine ⟨{ db with packages := db.packages ++
        [⟨nextRowid (db.packages.map (fun p => p.id)), n⟩] }, _, ?_, rfl, by simp,
      Or.inr ⟨hn, rfl, rfl⟩⟩
    simp only [resolvePackage, h, insertPackage, if_neg hn]

theorem resolvePackage_packages_subset {db db1 : DB} {n : GoString} {id : Nat}
    (h : resolvePackage db n = some (db1, id)) : ∀ p ∈ db.packages, p ∈ db1.packages := by
  obtain ⟨d, i, e, _, _, h2⟩ := resolvePackage_spec db n
  rw [h] at e
  obtain ⟨rfl, rfl⟩ := Prod.mk.inj (Option.some.inj e)
  rcases h2 with ⟨rfl, _⟩ | ⟨_, _, e2⟩
  · exact fun p hp => hp
  · intro p hp
    rw [e2]
    exact List.mem_append_left _ hp

theorem resolvePackage_uniqueNames {db db1 : DB} {n : GoString} {id : Nat}
    (h : resolvePackage db n = some (db1, id)) (hu : UniqueNames db) : UniqueNames db1 := by
  obtain ⟨d, i, e, _, _, h2⟩ := resolvePackage_spec db n
  rw [h] at e
  obtain ⟨rfl, rfl⟩ := Prod.mk.inj (Option.some.inj e)
  rcases h2 with ⟨rfl, _⟩ | ⟨hn, _, e2⟩
  · exact hu
  · simp only [UniqueNames, e2, List.map_append, List.map_cons, List.map_nil] at hu ⊢
    refine List.Nodup.append hu (by simp) ?_
    simpa [List.disjoint_singleton] using hn

theorem resolvePackage_uniqueIds {db db1 : DB} {n : GoString} {id : Nat}
    (h : resolvePackage db n = some (db1, id)) (hu : UniqueIds db) : UniqueIds db1 := by
  obtain ⟨d, i, e, _, _, h2⟩ := resolvePackage_spec db n
  rw [h] at e
  obtain ⟨rfl, rfl⟩ := Prod.mk.inj (Option.some.inj e)
  rcases h2 with ⟨rfl, _⟩ | ⟨_, hi, e2⟩
  · exact hu
  · simp only [UniqueIds, e2, List.map_append, List.map_cons, List.map_nil] at hu ⊢
    refine List.Nodup.append hu (by simp) ?_
    have := nextRowid_not_mem (db.packages.map (fun p => p.id))
    rw [← hi] at this
    simpa [List.disjoint_singleton] using this

/-- Resolving a name a second time returns the same id and changes nothing. -/
theorem resolvePackage_idem {db db1 : DB} {n : GoString} {id : Nat}
    (h : resolvePackage db n = some (db1, id)) : resolvePackage db1 n = some (db1, id) := by
  obtain ⟨d, i, e, _, _, h2⟩ := resolvePackage_spec db n
  rw [h] at e
  obtain ⟨rfl, rfl⟩ := Prod.mk.inj (Option.some.inj e)
  rcases h2 with ⟨rfl, hs⟩ | ⟨hn, _, e2⟩
  · exact h
  · have hf : db.packages.find? (fun p => decide (p.name = n)) = none := by
      simp only [List.find?_eq_none, decide_eq_true_eq]
      intro p hp e
      exact hn (e ▸ List.mem_map_of_mem _ hp)
    simp [resolvePackage, selectPackageId, e2, List.find?_append, hf]

theorem countVisited_eq_zero {db : DB} {id : Nat} {d : GoString} :
    countVisited db id d = 0 ↔ ∀ v ∈ db.visited, ¬ (v.pkgid = id ∧ v.date = d) := by
  simp [countVisited, List.countP_eq_zero]

theorem countP_key_le_one (l : List VisitedRow) (id : Nat) (d : GoString)
    (h : (l.map (fun v => (v.pkgid, v.date))).Nodup) :
    l.countP (fun v => decide (v.pkgid = id) && decide (v.date = d)) ≤ 1 := by
  induction l with
  | nil => simp
  | cons x xs ih =>
    simp only [List.map_cons, List.nodup_cons] at h
    by_cases hx : x.pkgid = id ∧ x.date = d
    · have h0 : xs.countP (fun v => decide (v.pkgid = id) && decide (v.date = d)) = 0 := by
        simp only [List.countP_eq_zero, Bool.and_eq_true, decide_eq_true_eq]
        intro v hv hv2
        apply h.1
        have : (x.pkgid, x.date) = (v.pkgid, v.date) := by rw [hx.1, hx.2, hv2.1, hv2.2]
        rw [this]
        exact List.mem_map_of_mem (fun v => (v.pkgid, v.date)) hv
      simp [List.countP_cons, h0, hx]
    · have := ih h.2
      have hx2 : (decide (x.pkgid = id) && decide (x.date = d)) = false := by
        simpa using hx
      simp [List.countP_cons, hx2, this]

/-- Under `UNIQUE(pkgid, date)` the count of line 229 is `0` or `1`. -/
theorem countVisited_le_one (db : DB) (id : Nat) (d : GoString) (h : UniqueVisits db) :
    countVisited db id d ≤ 1 := countP_key_le_one db.visited id d h

theorem countVisited_pos {db : DB} {id : Nat} {d : GoString} {v : VisitedRow}
    (hv : v ∈ db.visited) (h1 : v.pkgid = id) (h2 : v.date = d) : 0 < countVisited db id d := by
  simp only [countVisited, List.countP_pos_iff]
  exact ⟨v, hv, by simp [h1, h2]⟩

/-- The insert of line 276 succeeds when no row has the key and the package row exists. -/
theorem insertVisited_of_count_zero {db : DB} {id : Nat} {d : GoString} (e : Bool)
    (h0 : countVisited db id d = 0) (hid : id ∈ db.packages.map (fun p => p.id)) :
    insertVisited db id d e = some { db with
      visited := db.visited ++ [⟨nextRowid (db.visited.map (fun v => v.id)), id, d, e⟩] } := by
  have hany : db.visited.any (fun v => decide (v.pkgid = id) && decide (v.date = d)) = false := by
    rw [countVisited_eq_zero] at h0
    simp only [List.any_eq_false, Bool.and_eq_true, decide_eq_true_eq]
    exact h0
  simp only [insertVisited, hany, Bool.false_eq_true, if_false, not_not.mpr hid]

/-- Whatever the insert of line 276 returns on success is the old table plus one row. -/
theorem insertVisited_some {db db2 : DB} {id : Nat} {d : GoString} {e : Bool}
    (h : insertVisited db id d e = some db2) :
    countVisited db id d = 0 ∧ id ∈ db.packages.map (fun p => p.id) ∧
      db2 = { db with
        visited := db.visited ++ [⟨nextRowid (db.visited.map (fun v => v.id)), id, d, e⟩] } := by
  simp only [insertVisited] at h
  split at h
  · simp at h
  · split at h
    · simp at h
    · rename_i hany hid
      refine ⟨?_, not_not.mp hid, (Option.some.inj h).symm⟩
      rw [countVisited_eq_zero]
      simpa using hany

/-! ## Facts about `visitLog` -/

theorem recordVisit_db (db : DB) (id : Nat) (d url : GoString) (e : Bool)
    (sent : List (GoString × GoString)) :
    (recordVisit db id d url e sent).db = db ∨
      insertVisited db id d e = some (recordVisit db id d url e sent).db := by
  unfold recordVisit
  cases h : insertVisited db id d e with
  | none => exact Or.inl rfl
  | some db2 => exact Or.inr rfl

theorem recordVisit_outcome (db : DB) (id : Nat) (d url : GoString) (e : Bool)
    (sent : List (GoString × GoString)) :
    ((recordVisit db id d url e sent).outcome = .panicVisitedInsert ∧
        insertVisited db id d e = none) ∨
      ((recordVisit db id d url e sent).outcome = .done ∧
        insertVisited db id d e = some (recordVisit db id d url e sent).db) := by
  unfold recordVisit
  cases h : insertVisited db id d e with
  | none => exact Or.inl ⟨rfl, rfl⟩
  | some db2 => exact Or.inr ⟨rfl, rfl⟩

/-- The body of `visitLog` once the name is resolved. -/
theorem visitLog_of_resolve {w : World} {url n d : GoString} {db db1 : DB} {id : Nat}
    (hurl : pkgNameAndDate url = some (n, d)) (hres : resolvePackage db n = some (db1, id)) :
    visitLog w url db =
      if countVisited db1 id d = 1 then ⟨db1, [], [], .skipped⟩
      else
        match w.get url with
        | none => ⟨db1, [url], [], .panicFetch⟩
        | some body =>
          if Contains body (ascii "error") then
            if w.matrixEnabled then
              if w.sendText room (errorMessage url) then
                recordVisit db1 id d url true [(room, errorMessage url)]
              else ⟨db1, [url], [(room, errorMessage url)], .panicSend⟩
            else recordVisit db1 id d url true []
          else recordVisit db1 id d url false [] := by
  simp only [visitLog, hurl, hres]

/-- The store after a call: untouched, or with the package resolved, or with the package
resolved and one successful insert into `visited`. -/
theorem visitLog_db (w : World) (url : GoString) (db : DB) :
    (visitLog w url db).db = db ∨
      ∃ n d db1 id, pkgNameAndDate url = some (n, d) ∧ resolvePackage db n = some (db1, id) ∧
        ((visitLog w url db).db = db1 ∨
          ∃ e, insertVisited db1 id d e = some (visitLog w url db).db) := by
  cases hurl : pkgNameAndDate url with
  | none => left; simp [visitLog, hurl]
  | some nd =>
    obtain ⟨n, d⟩ := nd
    obtain ⟨db1, id, hres, -⟩ := resolvePackage_spec db n
    right
    refine ⟨n, d, db1, id, rfl, hres, ?_⟩
    rw [visitLog_of_resolve hurl hres]
    split
    · exact Or.inl rfl
    · split
      · exact Or.inl rfl
      · split
        · split
          · split
            · rcases recordVisit_db db1 id d url true [(room, errorMessage url)] with h | h
              · exact Or.inl h
              · exact Or.inr ⟨_, h⟩
            · exact Or.inl rfl
          · rcases recordVisit_db db1 id d url true [] with h | h
            · exact Or.inl h
            · exact Or.inr ⟨_, h⟩
        · rcases recordVisit_db db1 id d url false [] with h | h
          · exact Or.inl h
          · exact Or.inr ⟨_, h⟩

/-- A pair that is not visited yet has count `0` once the package is resolved. -/
theorem countVisited_of_not_visited {db db1 : DB} {n d : GoString} {id : Nat}
    (hfk : ForeignKeys db) (hnew : ¬ Visited db n d)
    (hres : resolvePackage db n = some (db1, id)) : countVisited db1 id d = 0 := by
  obtain ⟨d1, i, e, hv, _, h2⟩ := resolvePackage_spec db n
  rw [hres] at e
  obtain ⟨rfl, rfl⟩ := Prod.mk.inj (Option.some.inj e)
  rw [countVisited_eq_zero, hv]
  rintro v hvm ⟨h1, h3⟩
  rcases h2 with ⟨rfl, hs⟩ | ⟨_, hi, _⟩
  · exact hnew ⟨⟨id, n⟩, selectPackageId_some hs, v, hvm, rfl, h1, h3⟩
  · have := hfk v hvm
    rw [h1, hi] at this
    exact nextRowid_not_mem _ this

/-- A pair that is visited has count `1`, and resolving its name changes nothing. -/
theorem countVisited_of_visited {db : DB} {n d : GoString}
    (hn : UniqueNames db) (hu : UniqueVisits db) (h : Visited db n d) :
    ∃ id, resolvePackage db n = some (db, id) ∧ countVisited db id d = 1 := by
  obtain ⟨p, hp, v, hv, rfl, h1, h2⟩ := h
  refine ⟨p.id, by simp [resolvePackage, selectPackageId_of_mem db p hn hp], ?_⟩
  have := countVisited_le_one db p.id d hu
  have := countVisited_pos hv h1 h2
  omega

/-- The whole effect of `visitLog` on a log that is not visited yet and can be fetched. -/
theorem visitLog_of_not_visited {w : World} {url n d body : GoString} {db : DB}
    (hfk : ForeignKeys db) (hurl : pkgNameAndDate url = some (n, d))
    (hnew : ¬ Visited db n d) (hget : w.get url = some body) :
    ∃ db1 id, resolvePackage db n = some (db1, id) ∧ db1.visited = db.visited ∧
      (⟨id, n⟩ : PackageRow) ∈ db1.packages ∧
      visitLog w url db =
        if Contains body (ascii "error") = true ∧ w.matrixEnabled = true ∧
            w.sendText room (errorMessage url) = false then
          ⟨db1, [url], [(room, errorMessage url)], .panicSend⟩
        else
          ⟨{ db1 with visited := db1.visited ++
              [⟨nextRowid (db1.visited.map (fun v => v.id)), id, d,
                Contains body (ascii "error")⟩] },
            [url],
            if Contains body (ascii "error") = true ∧ w.matrixEnabled = true then
              [(room, errorMessage url)] else [],
            .done⟩ := by
  obtain ⟨db1, id, hres, hv, hmem, -⟩ := resolvePackage_spec db n
  refine ⟨db1, id, hres, hv, hmem, ?_⟩
  have h0 := countVisited_of_not_visited hfk hnew hres
  have hid : id ∈ db1.packages.map (fun p => p.id) := List.mem_map_of_mem (fun p => p.id) hmem
  have hins := fun e => insertVisited_of_count_zero e h0 hid
  rw [visitLog_of_resolve hurl hres]
  simp only [h0, hget, recordVisit, hins]
  cases hc : Contains body (ascii "error") <;> cases hm : w.matrixEnabled <;>
    cases hs : w.sendText room (errorMessage url) <;> simp

/-- What a call does once the URL has parsed: the index panic is avoided, the name is
resolved, and the store is the resolved one, possibly with one row inserted. -/
theorem visitLog_db_of_url (w : World) (db : DB) {url n d : GoString}
    (hurl : pkgNameAndDate url = some (n, d)) :
    ∃ db1 id, resolvePackage db n = some (db1, id) ∧
      (visitLog w url db).outcome ≠ .panicIndex ∧
      ((visitLog w url db).db = db1 ∨
        ∃ e, insertVisited db1 id d e = some (visitLog w url db).db) := by
  obtain ⟨db1, id, hres, -⟩ := resolvePackage_spec db n
  refine ⟨db1, id, hres, ?_⟩
  rw [visitLog_of_resolve hurl hres]
  have key : ∀ e sent, (recordVisit db1 id d url e sent).outcome ≠ .panicIndex ∧
      ((recordVisit db1 id d url e sent).db = db1 ∨
        ∃ e2, insertVisited db1 id d e2 = some (recordVisit db1 id d url e sent).db) := by
    intro e sent
    constructor
    · rcases recordVisit_outcome db1 id d url e sent with h | h <;> simp [h.1]
    · rcases recordVisit_db db1 id d url e sent with h | h
      · exact Or.inl h
      · exact Or.inr ⟨_, h⟩
  split
  · exact ⟨by simp, Or.inl rfl⟩
  · split
    · exact ⟨by simp, Or.inl rfl⟩
    · split
      · split
        · split
          · exact key _ _
          · exact ⟨by simp, Or.inl rfl⟩
        · exact key _ _
      · exact key _ _

theorem visitLog_packages_of_url (w : World) (db : DB) {url n d : GoString}
    (hurl : pkgNameAndDate url = some (n, d)) :
    ∃ id, (⟨id, n⟩ : PackageRow) ∈ (visitLog w url db).db.packages := by
  obtain ⟨db1, id, hres, -, h⟩ := visitLog_db_of_url w db hurl
  obtain ⟨d1, i, e, _, hmem, -⟩ := resolvePackage_spec db n
  rw [hres] at e
  obtain ⟨rfl, rfl⟩ := Prod.mk.inj (Option.some.inj e)
  refine ⟨id, ?_⟩
  rcases h with h | ⟨e, h⟩
  · rw [h]; exact hmem
  · rw [(insertVisited_some h).2.2]; exact hmem

theorem visitLog_uniqueVisits (w : World) (url : GoString) (db : DB) (h : UniqueVisits db) :
    UniqueVisits (visitLog w url db).db := by
  rcases visitLog_db w url db with e | ⟨n, d, db1, id, -, hres, e | ⟨b, e⟩⟩
  · rw [e]; exact h
  · obtain ⟨d1, i, e1, hv, -⟩ := resolvePackage_spec db n
    rw [hres] at e1
    obtain ⟨rfl, rfl⟩ := Prod.mk.inj (Option.some.inj e1)
    rw [e]
    simpa [UniqueVisits, hv] using h
  · obtain ⟨d1, i, e1, hv, -⟩ := resolvePackage_spec db n
    rw [hres] at e1
    obtain ⟨rfl, rfl⟩ := Prod.mk.inj (Option.some.inj e1)
    obtain ⟨h0, -, e2⟩ := insertVisited_some e
    rw [e2]
    rw [countVisited_eq_zero] at h0
    simp only [UniqueVisits, List.map_append, List.map_cons, List.map_nil, hv] at h ⊢
    refine List.Nodup.append h (by simp) ?_
    rw [List.disjoint_singleton]
    intro hm
    obtain ⟨v, hv1, hv2⟩ := List.mem_map.mp hm
    have := Prod.mk.inj hv2
    exact h0 v (hv ▸ hv1) ⟨this.1, this.2⟩

theorem visitLog_uniqueNames (w : World) (url : GoString) (db : DB) (h : UniqueNames db) :
    UniqueNames (visitLog w url db).db := by
  rcases visitLog_db w url db with e | ⟨n, d, db1, id, -, hres, e | ⟨b, e⟩⟩
  · rw [e]; exact h
  · rw [e]; exact resolvePackage_uniqueNames hres h
  · rw [(insertVisited_some e).2.2]
    exact (resolvePackage_uniqueNames hres h : UniqueNames db1)

theorem visitLog_uniqueIds (w : World) (url : GoString) (db : DB) (h : UniqueIds db) :
    UniqueIds (visitLog w url db).db := by
  rcases visitLog_db w url db with e | ⟨n, d, db1, id, -, hres, e | ⟨b, e⟩⟩
  · rw [e]; exact h
  · rw [e]; exact resolvePackage_uniqueIds hres h
  · rw [(insertVisited_some e).2.2]
    exact (resolvePackage_uniqueIds hres h : UniqueIds db1)

theorem Referential.mono {db : DB} {urls urls2 : List GoString} (h : Referential db urls)
    (hs : ∀ u ∈ urls, u ∈ urls2) : Referential db urls2 := by
  intro v hv
  obtain ⟨p, hp, e, u, hu, hpd⟩ := h v hv
  exact ⟨p, hp, e, u, hs u hu, hpd⟩

theorem visitLog_referential (w : World) (url : GoString) (db : DB) (urls : List GoString)
    (h : Referential db urls) : Referential (visitLog w url db).db (urls ++ [url]) := by
  have hmono : Referential db (urls ++ [url]) :=
    h.mono (fun u hu => List.mem_append_left _ hu)
  rcases visitLog_db w url db with e | ⟨n, d, db1, id, hurl, hres, e⟩
  · rw [e]; exact hmono
  · obtain ⟨d1, i, e1, hv, hmem, -⟩ := resolvePackage_spec db n
    rw [hres] at e1
    obtain ⟨rfl, rfl⟩ := Prod.mk.inj (Option.some.inj e1)
    have hsub := resolvePackage_packages_subset hres
    have h1 : Referential db1 (urls ++ [url]) := by
      intro v hvm
      obtain ⟨p, hp, e2, u, hu, hpd⟩ := hmono v (hv ▸ hvm)
      exact ⟨p, hsub p hp, e2, u, hu, hpd⟩
    rcases e with e | ⟨b, e⟩
    · rw [e]; exact h1
    · rw [(insertVisited_some e).2.2]
      intro v hvm
      simp only [List.mem_append, List.mem_singleton] at hvm
      rcases hvm with hvm | rfl
      · exact h1 v hvm
      · exact ⟨⟨id, n⟩, hmem, rfl, url, by simp, hurl⟩

theorem visitLogs_invariants (calls : List (World × GoString)) (db : DB) (urls : List GoString)
    (hn : UniqueNames db) (hi : UniqueIds db) (hr : Referential db urls) :
    UniqueNames (visitLogs db calls) ∧ UniqueIds (visitLogs db calls) ∧
      Referential (visitLogs db calls) (urls ++ calls.map Prod.snd) := by
  induction calls generalizing db urls with
  | nil => simpa [visitLogs] using ⟨hn, hi, hr⟩
  | cons c cs ih =>
    obtain ⟨w, url⟩ := c
    have := ih (visitLog w url db).db (urls ++ [url]) (visitLog_uniqueNames w url db hn)
      (visitLog_uniqueIds w url db hi) (visitLog_referential w url db urls hr)
    simpa [visitLogs] using this

/-! ## The claims -/

/-- C1 (defect of line 187): on the log URL `.../libfoo/catalog.log` the date that
`visitLog` derives and stores as the key of the visit record is `cata`, not the file name
`catalog` without its extension: `strings.Trim` removes every leading and trailing byte of
the set `.`, `l`, `o`, `g`, not the suffix `.log`. -/
theorem visitLog_date_trims_cutset :
    pkgNameAndDate catalogUrl = some (ascii "libfoo", ascii "cata") ∧
      (visitLog (worldOf (ascii "ok") false true) catalogUrl DB.empty).db.visited
        = [⟨1, 1, ascii "cata", false⟩] ∧
      ascii "cata" ≠ ascii "catalog" := by
  decide

/-- C2: a log URL whose (package, date) pair is present as a visit record is skipped:
`visitLog` returns at line 237 with both tables unchanged, no fetch and no notification. -/
theorem visitLog_skips_visited (w : World) (url : GoString) (db : DB) (pkgName date : GoString)
    (hn : UniqueNames db) (hu : UniqueVisits db)
    (hurl : pkgNameAndDate url = some (pkgName, date)) (hv : Visited db pkgName date) :
    visitLog w url db = ⟨db, [], [], .skipped⟩ := by
  obtain ⟨id, hres, hc⟩ := countVisited_of_visited hn hu hv
  rw [visitLog_of_resolve hurl hres]
  simp [hc]

/-- The second visit of `bar/2024-05-01.log`, on the store that holds its visit record. -/
theorem visitLog_skips_visited_witness :
    visitLog (worldOf (ascii "an error") true true) barUrl barVisited
      = ⟨barVisited, [], [], .skipped⟩ :=
  visitLog_skips_visited _ barUrl barVisited (ascii "bar") (ascii "2024-05-01")
    (by decide) (by decide) (by decide) (by decide)

/-- C3: any finite sequence of `visitLog` calls, on arbitrary URLs and with arbitrary
answers of the network and of the notifier, keeps the visit records free of two rows with
the same (package id, date). -/
theorem visitLogs_uniqueVisits (calls : List (World × GoString)) (db : DB)
    (h : UniqueVisits db) : UniqueVisits (visitLogs db calls) := by
  induction calls generalizing db with
  | nil => simpa [visitLogs] using h
  | cons c cs ih =>
    obtain ⟨w, url⟩ := c
    simpa [visitLogs] using ih _ (visitLog_uniqueVisits w url db h)

/-- The same URL dispatched twice on the empty store. -/
theorem visitLogs_uniqueVisits_witness :
    UniqueVisits DB.empty ∧
      UniqueVisits (visitLogs DB.empty
        [(worldOf (ascii "an error") false true, barUrl),
         (worldOf (ascii "an error") false true, barUrl)]) :=
  ⟨by decide, visitLogs_uniqueVisits _ DB.empty (by decide)⟩

/-- C4 (as amended): for a log that is not visited yet and whose body classifies as
erroring, an error of the notifier is fatal before the insert: `visitLog` panics at line
259 and the `visited` table is unchanged. The visit record (package, date, true) is stored
when the notifier is not called (matrix disabled) or returns no error. -/
theorem visitLog_send_error (w : World) (url : GoString) (db : DB) (n d body : GoString)
    (hfk : ForeignKeys db) (hurl : pkgNameAndDate url = some (n, d))
    (hnew : ¬ Visited db n d) (hget : w.get url = some body)
    (herr : Contains body (ascii "error") = true) :
    (w.matrixEnabled = true ∧ w.sendText room (errorMessage url) = false →
        (visitLog w url db).outcome = .panicSend ∧
          (visitLog w url db).db.visited = db.visited) ∧
      (¬ (w.matrixEnabled = true ∧ w.sendText room (errorMessage url) = false) →
        (visitLog w url db).outcome = .done ∧
          ∃ p ∈ (visitLog w url db).db.packages, p.name = n ∧
            ∃ rowid, (visitLog w url db).db.visited = db.visited ++ [⟨rowid, p.id, d, true⟩]) := by
  obtain ⟨db1, id, -, hv, hmem, e⟩ := visitLog_of_not_visited hfk hurl hnew hget
  constructor
  · intro hs
    rw [e, if_pos ⟨herr, hs⟩]
    exact ⟨rfl, hv⟩
  · intro hs
    rw [e, if_neg (fun h => hs h.2)]
    exact ⟨rfl, ⟨id, n⟩, hmem, rfl, nextRowid (db.visited.map (fun v => v.id)),
      by simp [hv, herr]⟩

/-- The first visit of `bar/2024-05-01.log` with a notifier that returns an error. -/
theorem visitLog_send_error_witness :
    (visitLog (worldOf (ascii "build error") true false) barUrl DB.empty).outcome = .panicSend ∧
      (visitLog (worldOf (ascii "build error") true false) barUrl DB.empty).db.visited = [] :=
  (visitLog_send_error (worldOf (ascii "build error") true false) barUrl DB.empty (ascii "bar")
    (ascii "2024-05-01") (ascii "build error") (by decide) (by decide) (by decide) rfl
    (by decide)).1 ⟨rfl, rfl⟩

/-- C4 (counterexample): on the empty store, with the body `build error` and a notifier that
returns an error, `visitLog` leaves no visit record for `bar/2024-05-01.log`. -/
theorem send_error_drops_visit :
    ¬ Visited DB.empty (ascii "bar") (ascii "2024-05-01") ∧
      Contains (ascii "build error") (ascii "error") = true ∧
      visitLog (worldOf (ascii "build error") true false) barUrl DB.empty
        = ⟨⟨[⟨1, ascii "bar"⟩], []⟩, [barUrl], [(room, errorMessage barUrl)], .panicSend⟩ := by
  decide

/-- C5: for a log that is not visited yet, whatever its body, `visitLog` either panics on a
failed notification and stores nothing, or appends exactly one visit record, and the flag of
that record is true if and only if the body contains the byte string `error`. -/
theorem visitLog_hadError_iff (w : World) (url : GoString) (db : DB) (n d body : GoString)
    (hfk : ForeignKeys db) (hurl : pkgNameAndDate url = some (n, d))
    (hnew : ¬ Visited db n d) (hget : w.get url = some body) :
    ((visitLog w url db).outcome = .panicSend ∧ (visitLog w url db).db.visited = db.visited ∧
        w.matrixEnabled = true ∧ w.sendText room (errorMessage url) = false) ∨
      ((visitLog w url db).outcome = .done ∧
        ∃ rowid pkgID hadError,
          (visitLog w url db).db.visited = db.visited ++ [⟨rowid, pkgID, d, hadError⟩] ∧
            (hadError = true ↔ ascii "error" <:+: body)) := by
  obtain ⟨db1, id, -, hv, -, e⟩ := visitLog_of_not_visited hfk hurl hnew hget
  by_cases hs : Contains body (ascii "error") = true ∧ w.matrixEnabled = true ∧
      w.sendText room (errorMessage url) = false
  · left
    rw [e, if_pos hs]
    exact ⟨rfl, hv, hs.2.1, hs.2.2⟩
  · right
    rw [e, if_neg hs]
    exact ⟨rfl, nextRowid (db.visited.map (fun v => v.id)), id, Contains body (ascii "error"),
      by simp [hv], Contains_iff _ _⟩

/-- The first visit of `bar/2024-05-01.log` with the body `an Error`. -/
theorem visitLog_hadError_iff_witness :
    ((visitLog (worldOf (ascii "an Error") true true) barUrl DB.empty).outcome = .panicSend ∧
        (visitLog (worldOf (ascii "an Error") true true) barUrl DB.empty).db.visited
          = DB.empty.visited ∧
        (worldOf (ascii "an Error") true true).matrixEnabled = true ∧
        (worldOf (ascii "an Error") true true).sendText room (errorMessage barUrl) = false) ∨
      ((visitLog (worldOf (ascii "an Error") true true) barUrl DB.empty).outcome = .done ∧
        ∃ rowid pkgID hadError,
          (visitLog (worldOf (ascii "an Error") true true) barUrl DB.empty).db.visited
            = DB.empty.visited ++ [⟨rowid, pkgID, ascii "2024-05-01", hadError⟩] ∧
            (hadError = true ↔ ascii "error" <:+: ascii "an Error")) :=
  visitLog_hadError_iff (worldOf (ascii "an Error") true true) barUrl DB.empty (ascii "bar")
    (ascii "2024-05-01") (ascii "an Error") (by decide) (by decide) (by decide) rfl

/-- C7: after any finite sequence of `visitLog` calls from the empty store, no two package
rows share a name or an id, every visit record refers to a package row under whose name
(and with the record's date) one of the visited URLs parses, and resolving a name once
more returns the same id and leaves the store as it is. -/
theorem visitLogs_referential (calls : List (World × GoString)) :
    UniqueNames (visitLogs DB.empty calls) ∧ UniqueIds (visitLogs DB.empty calls) ∧
      (∀ v ∈ (visitLogs DB.empty calls).visited,
        ∃ p ∈ (visitLogs DB.empty calls).packages, p.id = v.pkgid ∧
          ∃ c ∈ calls, pkgNameAndDate c.2 = some (p.name, v.date)) ∧
      (∀ name, ∃ db1 id, resolvePackage (visitLogs DB.empty calls) name = some (db1, id) ∧
        (⟨id, name⟩ : PackageRow) ∈ db1.packages ∧
        resolvePackage db1 name = some (db1, id)) := by
  obtain ⟨hn, hi, hr⟩ := visitLogs_invariants calls DB.empty []
    (by decide) (by decide) (by intro v hv; simp [DB.empty] at hv)
  refine ⟨hn, hi, ?_, ?_⟩
  · intro v hv
    obtain ⟨p, hp, e, u, hu, hpd⟩ := hr v hv
    simp only [List.nil_append, List.mem_map] at hu
    obtain ⟨c, hc, rfl⟩ := hu
    exact ⟨p, hp, e, c, hc, hpd⟩
  · intro name
    obtain ⟨db1, id, hres, -, hmem, -⟩ := resolvePackage_spec (visitLogs DB.empty calls) name
    exact ⟨db1, id, hres, hmem, resolvePackage_idem hres⟩

/-- C8 (as amended): for a log that is not visited yet, `visitLog` calls the notifier exactly
once, with a text that contains the URL, when the body classifies as erroring and
`matrix.enabled` is set; it does not call the notifier when the body is clean or when
`matrix.enabled` is not set. -/
theorem visitLog_sent (w : World) (url : GoString) (db : DB) (n d body : GoString)
    (hfk : ForeignKeys db) (hurl : pkgNameAndDate url = some (n, d))
    (hnew : ¬ Visited db n d) (hget : w.get url = some body) :
    (visitLog w url db).sent =
        (if Contains body (ascii "error") = true ∧ w.matrixEnabled = true then
          [(room, errorMessage url)] else []) ∧
      url <:+: errorMessage url := by
  obtain ⟨db1, id, -, -, -, e⟩ := visitLog_of_not_visited hfk hurl hnew hget
  refine ⟨?_, ⟨ascii "logfile contains an error: ", [], by simp [errorMessage]⟩⟩
  rw [e]
  cases hc : Contains body (ascii "error") <;> cases hm : w.matrixEnabled <;>
    cases hs : w.sendText room (errorMessage url) <;> simp

/-- The first visit of `bar/2024-05-01.log` with the body `build error`, matrix enabled. -/
theorem visitLog_sent_witness :
    (visitLog (worldOf (ascii "build error") true true) barUrl DB.empty).sent =
        (if Contains (ascii "build error") (ascii "error") = true ∧
            (worldOf (ascii "build error") true true).matrixEnabled = true then
          [(room, errorMessage barUrl)] else []) ∧
      barUrl <:+: errorMessage barUrl :=
  visitLog_sent (worldOf (ascii "build error") true true) barUrl DB.empty (ascii "bar")
    (ascii "2024-05-01") (ascii "build error") (by decide) (by decide) (by decide) rfl

/-- C8 (counterexample): on the empty store, with matrix disabled, the log
`bar/2024-05-01.log` is fetched, classifies as erroring and is recorded, and the notifier is
not called. -/
theorem erroring_log_not_notified :
    ¬ Visited DB.empty (ascii "bar") (ascii "2024-05-01") ∧
      Contains (ascii "build error") (ascii "error") = true ∧
      visitLog (worldOf (ascii "build error") false true) barUrl DB.empty
        = ⟨⟨[⟨1, ascii "bar"⟩], [⟨1, 1, ascii "2024-05-01", true⟩]⟩, [barUrl], [], .done⟩ := by
  decide

/-- C9: a URL with at least one `/` ends in `name/last` with `name` and `last` free of `/`
(preceded by nothing or by a part that ends in `/`), and for every such reading of the URL
the package name that `visitLog` derives is `name`: the index of line 186 is in range, and
the call leaves a package row of that name. -/
theorem pkgName_second_to_last (url : GoString) (h : slash ∈ url) :
    (∃ pre name last, url = pre ++ name ++ slash :: last ∧ slash ∉ name ∧ slash ∉ last ∧
        (pre = [] ∨ ∃ p, pre = p ++ [slash])) ∧
      ∀ pre name last, url = pre ++ name ++ slash :: last → slash ∉ name → slash ∉ last →
        (pre = [] ∨ ∃ p, pre = p ++ [slash]) →
        (∃ date, pkgNameAndDate url = some (name, date)) ∧
          ∀ w db, (visitLog w url db).outcome ≠ .panicIndex ∧
            ∃ id, (⟨id, name⟩ : PackageRow) ∈ (visitLog w url db).db.packages := by
  refine ⟨exists_last_two url h, ?_⟩
  intro pre name last e hn hl hp
  obtain ⟨front, hf⟩ := Split_last_two pre name last hn hl hp
  rw [← e] at hf
  have hurl := pkgNameAndDate_of_split url front name last hf
  refine ⟨⟨_, hurl⟩, fun w db => ?_⟩
  obtain ⟨db1, id, -, hne, -⟩ := visitLog_db_of_url w db hurl
  exact ⟨hne, visitLog_packages_of_url w db hurl⟩

/-- The terminal-path example: `.../libfoo/2024-03-02.log` gives the package `libfoo`. -/
theorem pkgName_second_to_last_witness :
    slash ∈ libfooUrl ∧ ∃ date, pkgNameAndDate libfooUrl = some (ascii "libfoo", date) :=
  ⟨by decide,
    ((pkgName_second_to_last libfooUrl (by decide)).2 (ascii "https://example.org/pkgs/")
      (ascii "libfoo") (ascii "2024-03-02.log") (by decide) (by decide) (by decide)
      (Or.inr ⟨ascii "https://example.org/pkgs", by decide⟩)).1⟩

/-- C10: on a store in which no two visit records share (package id, date), whenever
`visitLog` passes the `count == 1` check no visit record with the resolved (package id,
date) exists and the insert of line 276 succeeds, so that `visitLog` never ends in the
panic of line 278. -/
theorem visitLog_insert_never_fails (w : World) (url : GoString) (db : DB)
    (h : UniqueVisits db) :
    (visitLog w url db).outcome ≠ .panicVisitedInsert ∧
      ∀ n d db1 id, pkgNameAndDate url = some (n, d) → resolvePackage db n = some (db1, id) →
        countVisited db1 id d ≠ 1 →
        (∀ v ∈ db1.visited, ¬ (v.pkgid = id ∧ v.date = d)) ∧
          ∀ e, ∃ db2, insertVisited db1 id d e = some db2 := by
  have key : ∀ n d db1 id, pkgNameAndDate url = some (n, d) →
      resolvePackage db n = some (db1, id) → countVisited db1 id d ≠ 1 →
      countVisited db1 id d = 0 ∧ ∀ e, ∃ db2, insertVisited db1 id d e = some db2 := by
    intro n d db1 id _ hres hc
    obtain ⟨d1, i, e1, hv, hmem, -⟩ := resolvePackage_spec db n
    rw [hres] at e1
    obtain ⟨rfl, rfl⟩ := Prod.mk.inj (Option.some.inj e1)
    have hu : UniqueVisits db1 := by simpa [UniqueVisits, hv] using h
    have hle := countVisited_le_one db1 id d hu
    have h0 : countVisited db1 id d = 0 := by omega
    exact ⟨h0, fun e => ⟨_, insertVisited_of_count_zero e h0
      (List.mem_map_of_mem (fun p => p.id) hmem)⟩⟩
  constructor
  · cases hurl : pkgNameAndDate url with
    | none => simp [visitLog, hurl]
    | some nd =>
      obtain ⟨n, d⟩ := nd
      obtain ⟨db1, id, hres, -⟩ := resolvePackage_spec db n
      rw [visitLog_of_resolve hurl hres]
      by_cases hc : countVisited db1 id d = 1
      · simp [hc]
      · obtain ⟨-, hins⟩ := key n d db1 id hurl hres hc
        have hrec : ∀ e sent, (recordVisit db1 id d url e sent).outcome = .done := by
          intro e sent
          obtain ⟨db2, h2⟩ := hins e
          simp [recordVisit, h2]
        simp only [hc, if_false]
        split
        · simp
        · split
          · split
            · split
              · rw [hrec]; simp
              · simp
            · rw [hrec]; simp
          · rw [hrec]; simp
  · intro n d db1 id hurl hres hc
    obtain ⟨h0, hins⟩ := key n d db1 id hurl hres hc
    exact ⟨countVisited_eq_zero.mp h0, hins⟩

/-- A visit of `libfoo/2024-03-02.log` on the store that holds the record of `bar`. -/
theorem visitLog_insert_never_fails_witness :
    UniqueVisits barVisited ∧
      (visitLog (worldOf (ascii "ok") true true) libfooUrl barVisited).outcome
        ≠ .panicVisitedInsert :=
  ⟨by decide,
    (visitLog_insert_never_fails (worldOf (ascii "ok") true true) libfooUrl barVisited
      (by decide)).1⟩


/-! ## Facts about `scrapeLinks` -/

theorem scanAttrs_eq_find {U : Type} (joinPath : U → GoString → U) (urlString : U → GoString)
    (base : U) (attrs : List Attribute) :
    scanAttrs joinPath urlString base attrs =
      ((attrs.find? (fun a => decide (a.Key = ascii "href" ∧ a.Val ≠ ascii "../"))).map
        (fun a => a.Val)).map (fun href => urlString (joinPath base href)) := by
  induction attrs with
  | nil => simp [scanAttrs]
  | cons a rest ih =>
    by_cases h : a.Key = ascii "href" ∧ a.Val ≠ ascii "../"
    · simp [scanAttrs, h, List.find?_cons]
    · simp only [scanAttrs, if_neg h, ih, List.find?_cons, decide_eq_false h]

theorem hrefOf_isSome (t : Token) :
    (hrefOf t).isSome = true ↔
      t.Typ = .StartTagToken ∧ t.Data = ascii "a" ∧
        ∃ a ∈ t.Attr, a.Key = ascii "href" ∧ a.Val ≠ ascii "../" := by
  unfold hrefOf
  by_cases h : t.Typ = .StartTagToken ∧ t.Data = ascii "a"
  · simp only [if_pos h, Option.isSome_map', List.find?_isSome, decide_eq_true_eq]
    tauto
  · simp only [if_neg h, Option.isSome_none, Bool.false_eq_true, false_iff]
    tauto

theorem scrapeLinks_cons {U : Type} (joinPath : U → GoString → U) (urlString : U → GoString)
    (base : U) (t : Token) (rest : List Token) :
    scrapeLinks joinPath urlString base (t :: rest) =
      if t.Typ = .ErrorToken then []
      else ((hrefOf t).map (fun href => urlString (joinPath base href))).toList ++
        scrapeLinks joinPath urlString base rest := by
  cases hT : t.Typ
  case StartTagToken =>
    by_cases hD : t.Data = ascii "a"
    · simp only [scrapeLinks, hT, hrefOf, hD, scanAttrs_eq_find, if_true, true_and,
        reduceCtorEq, if_false]
      cases (t.Attr.find? (fun a => decide (a.Key = ascii "href" ∧ a.Val ≠ ascii "../")))
        <;> simp
    · simp [scrapeLinks, hT, hrefOf, hD]
  all_goals simp [scrapeLinks, hT, hrefOf]

theorem extractLinks_cons {U : Type} (joinPath : U → GoString → U) (urlString : U → GoString)
    (base : U) (t : Token) (rest : List Token) :
    extractLinks joinPath urlString base (t :: rest) =
      if t.Typ = .ErrorToken then []
      else ((hrefOf t).map (fun href => urlString (joinPath base href))).toList ++
        extractLinks joinPath urlString base rest := by
  unfold extractLinks
  by_cases hT : t.Typ = .ErrorToken
  · simp [List.takeWhile_cons, hT]
  · simp only [List.takeWhile_cons, ne_eq, hT, not_false_eq_true, decide_True, if_true,
      List.filterMap_cons, if_false]
    cases (hrefOf t).map (fun href => urlString (joinPath base href)) <;> simp

theorem scrapeLinks_eq_extractLinks {U : Type} (joinPath : U → GoString → U)
    (urlString : U → GoString) (base : U) (tokens : List Token) :
    scrapeLinks joinPath urlString base tokens = extractLinks joinPath urlString base tokens := by
  induction tokens with
  | nil => simp [scrapeLinks, extractLinks]
  | cons t rest ih => rw [scrapeLinks_cons, extractLinks_cons, ih]

/-- C6: for every token stream and base URL, whatever `JoinPath` and `String` compute, the
strings that `scrapeLinks` sends are, in document order, the base URL joined with the href
of each anchor start tag that has an `href` attribute other than `../` (the first such
attribute), and nothing for any other token; `https://example.org/pkgs/` with the href
`foo/2024-01-01.log` gives `https://example.org/pkgs/foo/2024-01-01.log`, and an anchor
whose only href is `../` gives nothing. -/
theorem scrapeLinks_extracts :
    (∀ (U : Type) (joinPath : U → GoString → U) (urlString : U → GoString) (base : U)
        (tokens : List Token),
        scrapeLinks joinPath urlString base tokens
            = extractLinks joinPath urlString base tokens ∧
          (scrapeLinks joinPath urlString base tokens).length
            = (tokens.takeWhile (fun t => decide (t.Typ ≠ .ErrorToken))).countP
                (fun t => decide (t.Typ = .StartTagToken ∧ t.Data = ascii "a" ∧
                  ∃ a ∈ t.Attr, a.Key = ascii "href" ∧ a.Val ≠ ascii "../")) ∧
          scrapeLinks joinPath urlString base [anchor (ascii "../")] = []) ∧
      scrapeLinks URL.JoinPath URL.String pkgsBase [anchor (ascii "foo/2024-01-01.log")]
        = [ascii "https://example.org/pkgs/foo/2024-01-01.log"] ∧
      scrapeLinks URL.JoinPath URL.String pkgsBase
          [anchor (ascii "../"), anchor (ascii "foo/2024-01-01.log")]
        = [ascii "https://example.org/pkgs/foo/2024-01-01.log"] := by
  refine ⟨fun U joinPath urlString base tokens => ⟨scrapeLinks_eq_extractLinks _ _ _ _, ?_, ?_⟩,
    by decide, by decide⟩
  · rw [scrapeLinks_eq_extractLinks]
    unfold extractLinks
    generalize tokens.takeWhile (fun t => decide (t.Typ ≠ .ErrorToken)) = ts
    induction ts with
    | nil => simp
    | cons t rest ih =>
      have hiff := hrefOf_isSome t
      cases hh : hrefOf t with
      | none =>
        have hn : ¬ (t.Typ = .StartTagToken ∧ t.Data = ascii "a" ∧
            ∃ a ∈ t.Attr, a.Key = ascii "href" ∧ a.Val ≠ ascii "../") := by
          intro h
          have := hiff.mpr h
          simp [hh] at this
        simp only [List.filterMap_cons, hh, Option.map_none', List.countP_cons, ih,
          decide_eq_false hn]
        simp
      | some href =>
        have hp : t.Typ = .StartTagToken ∧ t.Data = ascii "a" ∧
            ∃ a ∈ t.Attr, a.Key = ascii "href" ∧ a.Val ≠ ascii "../" :=
          hiff.mp (by simp [hh])
        simp only [List.filterMap_cons, hh, Option.map_some', List.countP_cons, ih,
          List.length_cons, decide_eq_true hp]
        simp
  · simp [scrapeLinks, anchor, scanAttrs]

end NixpkgsUpdateNotify
